import Mathlib

/-!
Verification of the sine-wave synthesis library (pkg/format and pkg/sine).

The development shallowly embeds the Go sources:

* `pkg/format/audio_format.go` — the sample encoders.  Finite float64
  values are modelled exactly as rationals (`GoFloat.finite`), and the IEEE
  special values NaN, plus infinity and minus infinity are explicit
  constructors, so that the comparison semantics of the Go `<` operator on
  float64 (false whenever one operand is NaN) is reproduced faithfully.
  Where the source multiplies two float64 values the model multiplies the
  exact rationals; the claims proved below only exercise inputs on which
  the float64 product is exact.
* `pkg/sine` — the generator and writer pipeline.  Signal values involve
  `math.Sin`, so they are modelled over the reals with `Real.sin`.
  `time.Duration` is an integer count of nanoseconds, modelled by `ℤ`.
-/

/-! ### Byte-level helpers shared by the encoder models -/

/-- Little-endian byte list of a machine word: `leBytes n w` is the list
`[w & 0xFF, (w >>> 8) & 0xFF, ...]` of length `n`, exactly the byte-shift
pattern used by the `Encode` methods in `pkg/format/audio_format.go`. -/
def leBytes : ℕ → ℕ → List ℕ
  | 0, _ => []
  | n + 1, w => (w % 256) :: leBytes n (w / 256)

/-- Reassemble a little-endian byte list into the machine word
`bytes[0] + 256 * bytes[1] + ...` (the inverse direction of `leBytes`). -/
def decodeLE : List ℕ → ℕ
  | [] => 0
  | b :: rest => b + 256 * decodeLE rest

/-- Twos-complement representation: the unsigned `bits`-wide word that a
signed integer `v` is stored as.  Go reads the bytes of an `intN` value
through `byte(v >> (8*k) & 0xFF)`, which for a value in range is exactly the
little-endian decomposition of `v mod 2^bits`. -/
def twosComp (bits : ℕ) (v : ℤ) : ℕ := (v.emod (2 ^ bits)).toNat

/-- Truncation of an exact rational toward zero, the rounding used by the Go
conversion from `float64` to a signed integer type for representable
results. -/
def ratTrunc (q : ℚ) : ℤ := q.num.tdiv (q.den : ℤ)

/-! ### The float64 model used by `pkg/format` -/

/-- Model of a Go `float64`: an exact finite value, or one of the special
values NaN, positive infinity and negative infinity.  (Signed zero and NaN
payloads only matter for `math.Float64bits`, which is treated at the level
of bit patterns below.) -/
inductive GoFloat where
  | finite (q : ℚ)
  | nan
  | posInf
  | negInf
deriving DecidableEq

/-- The Go `<` operator on float64 (IEEE-754 ordered less-than): any
comparison with a NaN operand is false, the infinities compare as
expected, and finite values compare as rationals. -/
def goFlt : GoFloat → GoFloat → Bool
  | .finite p, .finite q => p < q
  | .finite _, .posInf => true
  | .negInf, .finite _ => true
  | .negInf, .posInf => true
  | _, _ => false

/-- Multiplication of a float64 by a positive finite constant (the source
uses the constants `32767.0` and `2147483647.0`).  The finite case is the
exact rational product. -/
def goMulPos (x : GoFloat) (c : ℚ) : GoFloat :=
  match x with
  | .finite q => .finite (q * c)
  | .nan => .nan
  | .posInf => .posInf
  | .negInf => .negInf

/-- The Go conversion `intN(x)` from float64, truncating toward zero.  For
NaN and the infinities the Go specification leaves the result
implementation-dependent; the gc compiler on amd64 and arm64 produces `0`
for NaN, and the callers below only reach this conversion after `Clamp`,
which eliminates the infinities.  The non-finite cases are modelled as
`0`. -/
def goToInt (x : GoFloat) : ℤ :=
  match x with
  | .finite q => ratTrunc q
  | _ => 0

/-- `Clamp` from `pkg/format/audio_format.go` (lines 24-32): bound `value`
to `[minVal, maxVal]`, comparing with the float64 `<` operator, so a NaN
`value` passes through unchanged (both comparisons are false). -/
def Clamp (value minVal maxVal : GoFloat) : GoFloat :=
  if goFlt value minVal then minVal
  else if goFlt maxVal value then maxVal
  else value

/-! ### `PCM16` -/

/-- `PCM16.BitDepth` from the source: 16. -/
def PCM16.BitDepth : ℕ := 16

/-- `PCM16.Quantize` (audio_format.go lines 40-43): clamp the sample to
`[-1.0, 1.0]`, scale by `32767.0` and convert to `int16`. -/
def PCM16.Quantize (sample : GoFloat) : ℤ :=
  goToInt (goMulPos (Clamp sample (.finite (-1)) (.finite 1)) 32767)

/-- `PCM16.Encode` (audio_format.go lines 45-47): the two little-endian
bytes `[byte(v & 0xFF), byte((v >> 8) & 0xFF)]` of the int16 value. -/
def PCM16.Encode (value : ℤ) : List ℕ := leBytes 2 (twosComp 16 value)

/-- `PCM16.ConvertSample` (audio_format.go lines 34-37): quantize then
encode. -/
def PCM16.ConvertSample (sample : GoFloat) : List ℕ :=
  PCM16.Encode (PCM16.Quantize sample)

/-! ### `PCM32` -/

/-- `PCM32.BitDepth` from the source: 32. -/
def PCM32.BitDepth : ℕ := 32

/-- `PCM32.Quantize` (audio_format.go lines 61-64): clamp to `[-1.0, 1.0]`,
scale by `2147483647.0` and convert to `int32`. -/
def PCM32.Quantize (sample : GoFloat) : ℤ :=
  goToInt (goMulPos (Clamp sample (.finite (-1)) (.finite 1)) 2147483647)

/-- `PCM32.Encode` (audio_format.go lines 66-71): the four little-endian
bytes of the int32 value. -/
def PCM32.Encode (value : ℤ) : List ℕ := leBytes 4 (twosComp 32 value)

/-- `PCM32.ConvertSample` (audio_format.go lines 55-58): quantize then
encode. -/
def PCM32.ConvertSample (sample : GoFloat) : List ℕ :=
  PCM32.Encode (PCM32.Quantize sample)

/-! ### `Float64`

`math.Float64bits` returns the IEEE-754 bit pattern of its argument and is
a bijection between float64 values and 64-bit words.  For this variant the
sample is therefore modelled by its bit pattern (a natural number below
`2 ^ 64`), which makes `Float64.Quantize` the identity on bit patterns and
keeps NaN payloads, infinities and the sign of zero distinguishable. -/

/-- `Float64.BitDepth` from the source: 64. -/
def Float64.BitDepth : ℕ := 64

/-- `Float64.Quantize` (audio_format.go lines 85-87): `math.Float64bits`,
the identity on the bit-pattern model of the sample. -/
def Float64.Quantize (sampleBits : ℕ) : ℕ := sampleBits

/-- `Float64.Encode` (audio_format.go lines 89-96): the eight little-endian
bytes of the 64-bit word. -/
def Float64.Encode (value : ℕ) : List ℕ := leBytes 8 value

/-- `Float64.ConvertSample` (audio_format.go lines 79-82): quantize then
encode. -/
def Float64.ConvertSample (sampleBits : ℕ) : List ℕ :=
  Float64.Encode (Float64.Quantize sampleBits)

/-! ### Spec-side formulations used for refinement comparisons -/

/-- Follows the words of the specification, not the source: the saturating
clamp of a sample to `[-1.0, 1.0]`, mapping out-of-range inputs to the
nearest boundary. -/
def specClampUnit (q : ℚ) : ℚ := max (-1) (min 1 q)

/-- Follows the words of the specification, not the source: the PCM16
quantization rule, clamp to `[-1.0, 1.0]` saturating, multiply by `32767`,
truncate toward zero. -/
def specPCM16Quantize (q : ℚ) : ℤ := ratTrunc (specClampUnit q * 32767)

/-! ### The sine package (`pkg/sine`)

Signal values are real numbers; `time.Duration` is an integer count of
nanoseconds.  The current `sine.go` keeps `Generate` and `WriteTo` exactly
as in the version recorded in `pkg/sine/testdata/README.md` (lines 89-132),
with the per-sample computation `calculateSampleValue`; the anti-aliasing
gate `applyAntiAliasingFilter` exercised by `TestAntiAliasingFilter` and
`TestNyquistFiltering` is modelled from the specification below. -/

/-- `time.Duration.Seconds`: the duration `d` in nanoseconds expressed in
seconds, as an exact real number. -/
noncomputable def durationSeconds (d : ℤ) : ℝ := (d : ℝ) / 1000000000

/-- The Go conversion `int(x)` from float64 for finite arguments: truncation
toward zero. -/
noncomputable def truncR (x : ℝ) : ℤ := if 0 ≤ x then ⌊x⌋ else ⌈x⌉

/-- The closed set of format variants held in the `Format` field of a
`Sine` value (`format.AudioFormat` is implemented exactly by `PCM16`,
`PCM32` and `Float64`). -/
inductive AudioFormat where
  | pcm16
  | pcm32
  | float64
deriving DecidableEq

/-- `BitDepth()` of each variant. -/
def AudioFormat.BitDepth : AudioFormat → ℕ
  | .pcm16 => 16
  | .pcm32 => 32
  | .float64 => 64

/-- `Clamp` on the real model of float64 (same source lines as `Clamp`
above, used by the quantizers reached from the writer pipeline, where the
samples are reals). -/
noncomputable def clampR (value minVal maxVal : ℝ) : ℝ :=
  if value < minVal then minVal
  else if maxVal < value then maxVal
  else value

/-- `ConvertSample` of the configured variant, on the real model of the
samples: the PCM variants clamp, scale and truncate as in
`audio_format.go`; `math.Float64bits` has no faithful counterpart on `ℝ`,
so the bit-pattern function is a parameter `bits` and the theorems below
hold for every interpretation of it. -/
noncomputable def AudioFormat.convertSampleR (bits : ℝ → ℕ) :
    AudioFormat → ℝ → List ℕ
  | .pcm16, x => leBytes 2 (twosComp 16 (truncR (clampR x (-1) 1 * 32767)))
  | .pcm32, x => leBytes 4 (twosComp 32 (truncR (clampR x (-1) 1 * 2147483647)))
  | .float64, x => leBytes 8 (bits x)

/-- The `Sine` value of `pkg/sine/types.go`: frequency in Hz, duration in
nanoseconds (`time.Duration`), amplitude, sampling rate in Hz and the
output format. -/
structure Sine where
  Frequency : ℝ
  Duration : ℤ
  Amplitude : ℝ
  SamplingRate : ℝ
  Format : AudioFormat

/-- Modelled from the spec: `applyAntiAliasingFilter` is absent from the
sources (only its tests `TestAntiAliasingFilter` and `TestNyquistFiltering`
remain); per the specification it computes `nyquist = samplingRate / 2`
and returns `0.0` unconditionally when `frequency >= nyquist`, otherwise
the signal unchanged. -/
noncomputable def Sine.applyAntiAliasingFilter (s : Sine) (signal : ℝ) : ℝ :=
  if s.SamplingRate / 2 ≤ s.Frequency then 0 else signal

/-- The per-sample computation: `t = n / samplingRate`,
`angle = 2 * pi * frequency * t`, `value = amplitude * sin(angle)` as in
`calculateSampleValue` (testdata/README.md lines 126-132), followed by the
anti-aliasing gate of the current `sine.go`, whose placement after the
signal computation is modelled from the spec (section 4.1). -/
noncomputable def Sine.calculateSampleValue (s : Sine) (n : ℕ) : ℝ :=
  let t : ℝ := (n : ℝ) / s.SamplingRate
  let angle : ℝ := 2 * Real.pi * s.Frequency * t
  let value : ℝ := s.Amplitude * Real.sin angle
  s.applyAntiAliasingFilter value

/-- `totalSamples := int(s.SamplingRate * s.Duration.Seconds())` from
`Generate`. -/
noncomputable def Sine.totalSamples (s : Sine) : ℤ :=
  truncR (s.SamplingRate * durationSeconds s.Duration)

/-- `Sine.Generate` (testdata/README.md lines 112-124): allocate
`make([]float64, totalSamples)` and fill index `n` with
`calculateSampleValue(n)` in index order.  `make` panics when the computed
length is negative, which is modelled by `none` (it also panics when the
length exceeds the maximum allocation, which is not modelled).  The error
result of the Go function is always `nil` — the source has no failing
branch — so `some` carries only the samples. -/
noncomputable def Sine.Generate (s : Sine) : Option (List ℝ) :=
  if s.totalSamples < 0 then none
  else some ((List.range s.totalSamples.toNat).map s.calculateSampleValue)

/-- Concatenation of the encodings of the samples in index order. -/
def joinBytes (convert : ℝ → List ℕ) : List ℝ → List ℕ
  | [] => []
  | x :: rest => convert x ++ joinBytes convert rest

/-- The write loop of `Sine.WriteTo` (testdata/README.md lines 98-107):
for each sample in order, convert it and hand the bytes to the sink.  The
sink is a state-passing function returning the new state, the count `n` of
bytes it accepted and an optional error.  On a sink error the loop stops
at once and returns the total accumulated so far (the count of the failing
call is not added, matching the source) together with the error wrapped by
`fmt.Errorf("unable to write data, err: %w", err)`; otherwise `n` is added
to the total and the loop continues. -/
def writeLoop {σ : Type} (convert : ℝ → List ℕ)
    (write : σ → List ℕ → σ × ℕ × Option String) :
    List ℝ → σ → ℤ → σ × ℤ × Option String
  | [], st, total => (st, total, none)
  | x :: rest, st, total =>
    let data := convert x
    match write st data with
    | (st2, _, some e) =>
      (st2, total, some (String.append "unable to write data, err: " e))
    | (st2, n, none) => writeLoop convert write rest st2 (total + (n : ℤ))

/-- `Sine.WriteTo` (testdata/README.md lines 89-110): generate the samples,
then encode and write each one in index order, accounting the total bytes
written.  A panic in `Generate` propagates (`none`); the error branch
wrapping a `Generate` error is dead code since that error is always
`nil`. -/
noncomputable def Sine.WriteTo {σ : Type} (s : Sine) (bits : ℝ → ℕ)
    (write : σ → List ℕ → σ × ℕ × Option String) (st : σ) :
    Option (σ × ℤ × Option String) :=
  match s.Generate with
  | none => none
  | some samples =>
    some (writeLoop (AudioFormat.convertSampleR bits s.Format) write samples st 0)

/-- Model of `bytes.Buffer` as a sink: every write succeeds, appends the
bytes and reports their full count. -/
def bufferWrite (buf : List ℕ) (data : List ℕ) : List ℕ × ℕ × Option String :=
  (buf ++ data, data.length, none)

/-- Model of a sink whose `k`-th write call (counting from 0) fails with
error message `e`; earlier calls behave like the buffer sink.  The state
carries the number of calls made so far and the bytes received. -/
def failAtWrite (k : ℕ) (e : String) (st : ℕ × List ℕ) (data : List ℕ) :
    (ℕ × List ℕ) × ℕ × Option String :=
  if st.1 = k then ((st.1 + 1, st.2), 0, some e)
  else ((st.1 + 1, st.2 ++ data), data.length, none)

/-- The configuration of scenario D: frequency exactly at the Nyquist
limit (22050 Hz at a 44100 Hz sampling rate), 100 ms, amplitude 1,
PCM16. -/
def sineNyq : Sine := ⟨22050, 100000000, 1, 44100, .pcm16⟩

/-- The configuration of scenario B: 1 Hz, one second, amplitude 1,
sampling rate 10 Hz. -/
def sineTen : Sine := ⟨1, 1000000000, 1, 10, .pcm16⟩

/-- The configuration of scenario A: 440 Hz, one second, amplitude 1,
sampling rate 44100 Hz. -/
def sineStd : Sine := ⟨440, 1000000000, 1, 44100, .pcm16⟩

/-- A configuration with a negative duration (440 Hz, minus one second,
sampling rate 44100 Hz). -/
def sineNegDur : Sine := ⟨440, -1000000000, 1, 44100, .pcm16⟩

/-! ### Arithmetic facts about the helpers -/

theorem leBytes_length (n w : ℕ) : (leBytes n w).length = n := by
  induction n generalizing w with
  | zero => rfl
  | succ n ih => simp [leBytes, ih]

theorem decodeLE_leBytes (n w : ℕ) : decodeLE (leBytes n w) = w % 256 ^ n := by
  induction n generalizing w with
  | zero => simp [leBytes, decodeLE, Nat.mod_one]
  | succ n ih =>
    rw [leBytes, decodeLE, ih, pow_succ, mul_comm (256 ^ n) 256, Nat.mod_mul]

theorem ratTrunc_of_nonneg {q : ℚ} (h : 0 ≤ q) : ratTrunc q = ⌊q⌋ := by
  rw [ratTrunc, Rat.floor_def,
    Int.tdiv_eq_ediv (Rat.num_nonneg.mpr h) (Int.natCast_nonneg q.den)]

theorem ratTrunc_neg (q : ℚ) : ratTrunc (-q) = -ratTrunc q := by
  rw [ratTrunc, ratTrunc, Rat.neg_num, Rat.neg_den, Int.neg_tdiv]

theorem ratTrunc_of_nonpos {q : ℚ} (h : q ≤ 0) : ratTrunc q = ⌈q⌉ := by
  have h2 : ratTrunc q = -ratTrunc (-q) := by rw [ratTrunc_neg, neg_neg]
  rw [h2, ratTrunc_of_nonneg (by linarith), Int.floor_neg, neg_neg]

theorem abs_ratTrunc_le {q : ℚ} {C : ℤ} (h : |q| ≤ (C : ℚ)) :
    |ratTrunc q| ≤ C := by
  rcases le_or_lt 0 q with h0 | h0
  · rw [ratTrunc_of_nonneg h0,
      abs_of_nonneg (Int.floor_nonneg.mpr h0)]
    calc ⌊q⌋ ≤ ⌊(C : ℚ)⌋ := Int.floor_le_floor (by rw [abs_of_nonneg h0] at h; exact h)
    _ = C := Int.floor_intCast C
  · rw [ratTrunc_of_nonpos (le_of_lt h0),
      abs_of_nonpos (Int.ceil_le.mpr (by exact_mod_cast le_of_lt h0))]
    have hC : (-C : ℚ) ≤ q := by
      rw [abs_of_nonpos (le_of_lt h0)] at h; linarith
    have := Int.ceil_le_ceil hC
    rw [show ((-C : ℚ)) = ((-C : ℤ) : ℚ) by push_cast; ring, Int.ceil_intCast] at this
    omega

theorem Clamp_unit_finite (q : ℚ) :
    Clamp (.finite q) (.finite (-1)) (.finite 1) = .finite (specClampUnit q) := by
  unfold Clamp specClampUnit
  by_cases h1 : q < -1
  · have hq1 : min 1 q = q := min_eq_right (by linarith)
    have hq2 : max (-1) q = -1 := max_eq_left (by linarith)
    simp [goFlt, h1, hq1, hq2]
  · by_cases h2 : 1 < q
    · have hq1 : min 1 q = 1 := min_eq_left (by linarith)
      have hq2 : max (-1 : ℚ) 1 = 1 := by norm_num
      simp [goFlt, h1, h2, hq1, hq2]
    · have hq1 : min 1 q = q := min_eq_right (by linarith)
      have hq2 : max (-1) q = q := max_eq_right (by linarith)
      simp [goFlt, h1, h2, hq1, hq2]

theorem pcm16_quantize_eq_spec (q : ℚ) :
    PCM16.Quantize (.finite q) = specPCM16Quantize q := by
  rw [PCM16.Quantize, Clamp_unit_finite]; rfl

theorem specClampUnit_abs_le (q : ℚ) : |specClampUnit q| ≤ 1 := by
  rw [specClampUnit, abs_le]
  constructor
  · exact le_max_left _ _
  · exact max_le (by norm_num) (min_le_left _ _)

theorem pcm32_quantize_finite (q : ℚ) :
    PCM32.Quantize (.finite q) = ratTrunc (specClampUnit q * 2147483647) := by
  rw [PCM32.Quantize, Clamp_unit_finite]; rfl

theorem abs_pcm16_quantize_le (x : GoFloat) : |PCM16.Quantize x| ≤ 32767 := by
  cases x with
  | finite q =>
    rw [pcm16_quantize_eq_spec, specPCM16Quantize]
    apply abs_ratTrunc_le
    rw [abs_mul]
    calc |specClampUnit q| * |(32767 : ℚ)|
        ≤ 1 * |(32767 : ℚ)| :=
          mul_le_mul_of_nonneg_right (specClampUnit_abs_le q) (abs_nonneg _)
      _ = ((32767 : ℤ) : ℚ) := by norm_num
  | nan => show |(0 : ℤ)| ≤ 32767; norm_num
  | posInf =>
    show |ratTrunc (1 * 32767)| ≤ 32767
    rw [show (1 * 32767 : ℚ) = 32767 by norm_num,
      ratTrunc_of_nonneg (by norm_num)]
    norm_num
  | negInf =>
    show |ratTrunc (-1 * 32767)| ≤ 32767
    rw [show (-1 * 32767 : ℚ) = ((-32767 : ℤ) : ℚ) by norm_num,
      ratTrunc_of_nonpos (by norm_num), Int.ceil_intCast]
    norm_num

theorem abs_pcm32_quantize_le (x : GoFloat) : |PCM32.Quantize x| ≤ 2147483647 := by
  cases x with
  | finite q =>
    rw [pcm32_quantize_finite]
    apply abs_ratTrunc_le
    rw [abs_mul]
    calc |specClampUnit q| * |(2147483647 : ℚ)|
        ≤ 1 * |(2147483647 : ℚ)| :=
          mul_le_mul_of_nonneg_right (specClampUnit_abs_le q) (abs_nonneg _)
      _ = ((2147483647 : ℤ) : ℚ) := by norm_num
  | nan => show |(0 : ℤ)| ≤ 2147483647; norm_num
  | posInf =>
    show |ratTrunc (1 * 2147483647)| ≤ 2147483647
    rw [show (1 * 2147483647 : ℚ) = 2147483647 by norm_num,
      ratTrunc_of_nonneg (by norm_num)]
    norm_num
  | negInf =>
    show |ratTrunc (-1 * 2147483647)| ≤ 2147483647
    rw [show (-1 * 2147483647 : ℚ) = ((-2147483647 : ℤ) : ℚ) by norm_num,
      ratTrunc_of_nonpos (by norm_num), Int.ceil_intCast]
    norm_num

/-- C4: for every float64 input, PCM16 `ConvertSample` clamps to
`[-1.0, 1.0]` saturating, multiplies by 32767, truncates toward zero to a
signed 16-bit integer and emits exactly two bytes in little-endian order;
in particular the input `0.5` quantizes to `16383` and yields the bytes
`[0xFF, 0x3F]`. -/
theorem pcm16_convertSample_rule :
    (∀ q : ℚ, PCM16.Quantize (.finite q) = specPCM16Quantize q) ∧
    (∀ x : GoFloat,
      PCM16.ConvertSample x = leBytes 2 (twosComp 16 (PCM16.Quantize x)) ∧
      (PCM16.ConvertSample x).length = 2) ∧
    PCM16.Quantize (.finite (1 / 2)) = 16383 ∧
    PCM16.ConvertSample (.finite (1 / 2)) = [0xFF, 0x3F] := by
  have h3 : PCM16.Quantize (.finite (1 / 2)) = 16383 := by
    rw [pcm16_quantize_eq_spec, specPCM16Quantize, specClampUnit,
      min_eq_right (by norm_num : (1 : ℚ) / 2 ≤ 1),
      max_eq_right (by norm_num : (-1 : ℚ) ≤ 1 / 2),
      show (1 / 2 : ℚ) * 32767 = 32767 / 2 by norm_num,
      ratTrunc_of_nonneg (by norm_num)]
    norm_num
  refine ⟨pcm16_quantize_eq_spec, fun x => ⟨rfl, leBytes_length 2 _⟩, h3, ?_⟩
  show PCM16.Encode (PCM16.Quantize (.finite (1 / 2))) = [0xFF, 0x3F]
  rw [h3]
  decide

/-- C5: saturating clamp for the PCM variants — any input strictly above
`1.0` in the float64 order quantizes exactly like `1.0`, and any input
strictly below `-1.0` quantizes exactly like `-1.0`, for both PCM16 and
PCM32; out-of-range inputs saturate at the boundary instead of wrapping. -/
theorem pcm_quantize_saturating_clamp (x : GoFloat) :
    (goFlt (.finite 1) x = true →
      PCM16.Quantize x = PCM16.Quantize (.finite 1) ∧
      PCM32.Quantize x = PCM32.Quantize (.finite 1)) ∧
    (goFlt x (.finite (-1)) = true →
      PCM16.Quantize x = PCM16.Quantize (.finite (-1)) ∧
      PCM32.Quantize x = PCM32.Quantize (.finite (-1))) := by
  cases x with
  | finite q =>
    constructor
    · intro h
      have hq : 1 < q := by simpa [goFlt] using h
      have h16 : Clamp (.finite q) (.finite (-1)) (.finite 1) =
          Clamp (.finite 1) (.finite (-1)) (.finite 1) := by
        rw [Clamp_unit_finite, Clamp_unit_finite, specClampUnit, specClampUnit,
          min_eq_left (le_of_lt hq), min_eq_left le_rfl]
      exact ⟨by unfold PCM16.Quantize; rw [h16], by unfold PCM32.Quantize; rw [h16]⟩
    · intro h
      have hq : q < -1 := by simpa [goFlt] using h
      have h16 : Clamp (.finite q) (.finite (-1)) (.finite 1) =
          Clamp (.finite (-1)) (.finite (-1)) (.finite 1) := by
        rw [Clamp_unit_finite, Clamp_unit_finite, specClampUnit, specClampUnit,
          min_eq_right (by linarith : q ≤ 1),
          min_eq_right (by norm_num : (-1 : ℚ) ≤ 1),
          max_eq_left (le_of_lt hq), max_eq_left le_rfl]
      exact ⟨by unfold PCM16.Quantize; rw [h16], by unfold PCM32.Quantize; rw [h16]⟩
  | nan => exact ⟨by intro h; simp [goFlt] at h, by intro h; simp [goFlt] at h⟩
  | posInf =>
    refine ⟨fun _ => ?_, fun h => by simp [goFlt] at h⟩
    have h16 : Clamp .posInf (.finite (-1)) (.finite 1) =
        Clamp (.finite 1) (.finite (-1)) (.finite 1) := by
      rw [Clamp_unit_finite, specClampUnit, min_eq_left le_rfl,
        max_eq_right (by norm_num : (-1 : ℚ) ≤ 1)]
      rfl
    exact ⟨by unfold PCM16.Quantize; rw [h16], by unfold PCM32.Quantize; rw [h16]⟩
  | negInf =>
    refine ⟨fun h => by simp [goFlt] at h, fun _ => ?_⟩
    have h16 : Clamp .negInf (.finite (-1)) (.finite 1) =
        Clamp (.finite (-1)) (.finite (-1)) (.finite 1) := by
      rw [Clamp_unit_finite, specClampUnit,
        min_eq_right (by norm_num : (-1 : ℚ) ≤ 1), max_eq_left le_rfl]
      rfl
    exact ⟨by unfold PCM16.Quantize; rw [h16], by unfold PCM32.Quantize; rw [h16]⟩

/-- Witness for C5 at the concrete inputs `2.0`, `-3.0` and the
infinities: all saturate to the corresponding boundary quantization. -/
theorem pcm_quantize_saturating_clamp_witness :
    (goFlt (.finite 1) (.finite 2) = true ∧
      PCM16.Quantize (.finite 2) = PCM16.Quantize (.finite 1) ∧
      PCM32.Quantize (.finite 2) = PCM32.Quantize (.finite 1)) ∧
    (goFlt (.finite (-3)) (.finite (-1)) = true ∧
      PCM16.Quantize (.finite (-3)) = PCM16.Quantize (.finite (-1)) ∧
      PCM32.Quantize (.finite (-3)) = PCM32.Quantize (.finite (-1))) ∧
    (goFlt (.finite 1) .posInf = true ∧
      PCM16.Quantize .posInf = PCM16.Quantize (.finite 1)) ∧
    (goFlt .negInf (.finite (-1)) = true ∧
      PCM16.Quantize .negInf = PCM16.Quantize (.finite (-1))) :=
  ⟨⟨by decide, (pcm_quantize_saturating_clamp (.finite 2)).1 (by decide)⟩,
   ⟨by decide, (pcm_quantize_saturating_clamp (.finite (-3))).2 (by decide)⟩,
   ⟨by decide, ((pcm_quantize_saturating_clamp .posInf).1 (by decide)).1⟩,
   ⟨by decide, ((pcm_quantize_saturating_clamp .negInf).2 (by decide)).1⟩⟩

/-- C6: reassembling the eight little-endian bytes produced by the Float64
encoder recovers exactly the original IEEE-754 bit pattern, for every
64-bit pattern — hence in particular for NaN, the infinities and signed
zero. -/
theorem float64_encode_roundtrip (w : ℕ) (h : w < 2 ^ 64) :
    decodeLE (Float64.ConvertSample w) = w := by
  show decodeLE (leBytes 8 w) = w
  rw [decodeLE_leBytes]
  exact Nat.mod_eq_of_lt (lt_of_lt_of_eq h (by norm_num))

/-- Witness for C6 at the bit patterns of the canonical quiet NaN, plus
and minus infinity and minus zero. -/
theorem float64_encode_roundtrip_witness :
    (0x7FF8000000000000 < 2 ^ 64 ∧
      decodeLE (Float64.ConvertSample 0x7FF8000000000000) = 0x7FF8000000000000) ∧
    (0x7FF0000000000000 < 2 ^ 64 ∧
      decodeLE (Float64.ConvertSample 0x7FF0000000000000) = 0x7FF0000000000000) ∧
    (0xFFF0000000000000 < 2 ^ 64 ∧
      decodeLE (Float64.ConvertSample 0xFFF0000000000000) = 0xFFF0000000000000) ∧
    (0x8000000000000000 < 2 ^ 64 ∧
      decodeLE (Float64.ConvertSample 0x8000000000000000) = 0x8000000000000000) :=
  ⟨⟨by norm_num, float64_encode_roundtrip _ (by norm_num)⟩,
   ⟨by norm_num, float64_encode_roundtrip _ (by norm_num)⟩,
   ⟨by norm_num, float64_encode_roundtrip _ (by norm_num)⟩,
   ⟨by norm_num, float64_encode_roundtrip _ (by norm_num)⟩⟩

/-- C7: `ConvertSample` is total — for every input, including NaN, the
infinities and out-of-range values, each variant returns a byte list of
exactly `BitDepth() / 8` bytes (2, 4 and 8 respectively), and the PCM
quantized integer is a defined value inside the signed range. -/
theorem convertSample_total_and_fixed_length :
    (∀ x : GoFloat,
      (PCM16.ConvertSample x).length = PCM16.BitDepth / 8 ∧
      (PCM32.ConvertSample x).length = PCM32.BitDepth / 8 ∧
      -32767 ≤ PCM16.Quantize x ∧ PCM16.Quantize x ≤ 32767 ∧
      -2147483647 ≤ PCM32.Quantize x ∧ PCM32.Quantize x ≤ 2147483647) ∧
    (∀ w : ℕ, (Float64.ConvertSample w).length = Float64.BitDepth / 8) := by
  refine ⟨fun x => ?_, fun w => leBytes_length 8 w⟩
  have h16 := abs_le.mp (abs_pcm16_quantize_le x)
  have h32 := abs_le.mp (abs_pcm32_quantize_le x)
  exact ⟨leBytes_length 2 _, leBytes_length 4 _, h16.1, h16.2, h32.1, h32.2⟩

/-! ### Facts about the generator -/

theorem truncR_of_nonneg {x : ℝ} (h : 0 ≤ x) : truncR x = ⌊x⌋ := if_pos h

theorem generate_eq_of_nonneg {s : Sine}
    (h : 0 ≤ s.SamplingRate * durationSeconds s.Duration) :
    s.Generate =
      some ((List.range (⌊s.SamplingRate * durationSeconds s.Duration⌋).toNat).map
        s.calculateSampleValue) := by
  have ht : s.totalSamples = ⌊s.SamplingRate * durationSeconds s.Duration⌋ := by
    rw [Sine.totalSamples, truncR_of_nonneg h]
  rw [Sine.Generate, ht, if_neg (not_lt.mpr (Int.floor_nonneg.mpr h))]

theorem mem_generate_eq {s : Sine} {l : List ℝ} (hl : s.Generate = some l)
    {x : ℝ} (hx : x ∈ l) : ∃ n : ℕ, x = s.calculateSampleValue n := by
  rw [Sine.Generate] at hl
  by_cases hneg : s.totalSamples < 0
  · rw [if_pos hneg] at hl; exact absurd hl (by simp)
  · rw [if_neg hneg] at hl
    have hl2 := Option.some.inj hl
    subst hl2
    rcases List.mem_map.mp hx with ⟨n, _, rfl⟩
    exact ⟨n, rfl⟩

/-- C1: Nyquist gating with an inclusive boundary — for every
configuration with a positive sampling rate, when
`frequency >= samplingRate / 2` every sample returned by `Generate` is
`0.0`, and when `frequency < samplingRate / 2` the gate returns every
signal value unchanged. -/
theorem nyquist_gate_inclusive_boundary (s : Sine) (hr : 0 < s.SamplingRate) :
    (s.SamplingRate / 2 ≤ s.Frequency →
      ∀ l, s.Generate = some l → ∀ x ∈ l, x = 0) ∧
    (s.Frequency < s.SamplingRate / 2 →
      ∀ signal, s.applyAntiAliasingFilter signal = signal) := by
  constructor
  · intro hf l hl x hx
    rcases mem_generate_eq hl hx with ⟨n, rfl⟩
    simp only [Sine.calculateSampleValue, Sine.applyAntiAliasingFilter]
    rw [if_pos hf]
  · intro hf signal
    rw [Sine.applyAntiAliasingFilter, if_neg (not_le.mpr hf)]


/-- Witness for C1 at the scenario D configuration. -/
theorem nyquist_gate_inclusive_boundary_witness :
    0 < sineNyq.SamplingRate ∧
    ((sineNyq.SamplingRate / 2 ≤ sineNyq.Frequency →
      ∀ l, sineNyq.Generate = some l → ∀ x ∈ l, x = 0) ∧
    (sineNyq.Frequency < sineNyq.SamplingRate / 2 →
      ∀ signal, sineNyq.applyAntiAliasingFilter signal = signal)) :=
  ⟨by norm_num [sineNyq],
   nyquist_gate_inclusive_boundary sineNyq (by norm_num [sineNyq])⟩

/-- C2: for a positive sampling rate and non-negative duration,
`Generate` returns exactly `floor(samplingRate * durationSeconds)` samples
in index order (sample `i` is `calculateSampleValue i`), and a zero
duration yields the empty sequence without an error. -/
theorem generate_sample_count_index_order (s : Sine)
    (hr : 0 < s.SamplingRate) (hd : 0 ≤ s.Duration) :
    (∃ l, s.Generate = some l ∧
      (l.length : ℤ) = ⌊s.SamplingRate * durationSeconds s.Duration⌋ ∧
      ∀ i (hi : i < l.length), l[i] = s.calculateSampleValue i) ∧
    (s.Duration = 0 → s.Generate = some []) := by
  have hsec : 0 ≤ durationSeconds s.Duration := by
    rw [durationSeconds]
    positivity
  have hx : 0 ≤ s.SamplingRate * durationSeconds s.Duration :=
    mul_nonneg (le_of_lt hr) hsec
  constructor
  · refine ⟨_, generate_eq_of_nonneg hx, ?_, ?_⟩
    · simp only [List.length_map, List.length_range]
      exact Int.toNat_of_nonneg (Int.floor_nonneg.mpr hx)
    · intro i hi
      simp
  · intro h0
    rw [generate_eq_of_nonneg hx, h0]
    norm_num [durationSeconds]


/-- Witness for C2 at the scenario B configuration (10 samples). -/
theorem generate_sample_count_index_order_witness :
    0 < sineTen.SamplingRate ∧ 0 ≤ sineTen.Duration ∧
    ((∃ l, sineTen.Generate = some l ∧
      (l.length : ℤ) = ⌊sineTen.SamplingRate * durationSeconds sineTen.Duration⌋ ∧
      ∀ i (hi : i < l.length), l[i] = sineTen.calculateSampleValue i) ∧
    (sineTen.Duration = 0 → sineTen.Generate = some [])) :=
  ⟨by norm_num [sineTen], by norm_num [sineTen],
   generate_sample_count_index_order sineTen (by norm_num [sineTen])
     (by norm_num [sineTen])⟩

/-- C3: amplitude bound — for every configuration with a non-negative
amplitude (and positive frequency and sampling rate), every sample
produced by `Generate` satisfies `abs(sample) <= amplitude`. -/
theorem generate_amplitude_bound (s : Sine) (ha : 0 ≤ s.Amplitude)
    (hf : 0 < s.Frequency) (hr : 0 < s.SamplingRate) :
    ∀ l, s.Generate = some l → ∀ x ∈ l, |x| ≤ s.Amplitude := by
  intro l hl x hx
  rcases mem_generate_eq hl hx with ⟨n, rfl⟩
  simp only [Sine.calculateSampleValue, Sine.applyAntiAliasingFilter]
  by_cases hg : s.SamplingRate / 2 ≤ s.Frequency
  · rw [if_pos hg]
    simpa using ha
  · rw [if_neg hg, abs_mul, abs_of_nonneg ha]
    calc s.Amplitude * |Real.sin (2 * Real.pi * s.Frequency * ((n : ℝ) / s.SamplingRate))|
        ≤ s.Amplitude * 1 := by
          apply mul_le_mul_of_nonneg_left (Real.abs_sin_le_one _) ha
      _ = s.Amplitude := mul_one _


/-- Witness for C3 at the scenario A configuration. -/
theorem generate_amplitude_bound_witness :
    0 ≤ sineStd.Amplitude ∧ 0 < sineStd.Frequency ∧ 0 < sineStd.SamplingRate ∧
    (∀ l, sineStd.Generate = some l → ∀ x ∈ l, |x| ≤ sineStd.Amplitude) :=
  ⟨by norm_num [sineStd], by norm_num [sineStd], by norm_num [sineStd],
   generate_amplitude_bound sineStd (by norm_num [sineStd])
     (by norm_num [sineStd]) (by norm_num [sineStd])⟩

/-! ### Facts about the writer pipeline -/

theorem convertSampleR_length (bits : ℝ → ℕ) (fmt : AudioFormat) (x : ℝ) :
    (AudioFormat.convertSampleR bits fmt x).length = fmt.BitDepth / 8 := by
  cases fmt <;>
    simp [AudioFormat.convertSampleR, AudioFormat.BitDepth, leBytes_length]

theorem joinBytes_length {convert : ℝ → List ℕ} {per : ℕ}
    (h : ∀ x, (convert x).length = per) (l : List ℝ) :
    (joinBytes convert l).length = l.length * per := by
  induction l with
  | nil => simp [joinBytes]
  | cons x rest ih => simp [joinBytes, h, ih]; ring

theorem writeTo_eq_some {s : Sine} {samples : List ℝ}
    (h : s.Generate = some samples) (bits : ℝ → ℕ) {σ : Type}
    (write : σ → List ℕ → σ × ℕ × Option String) (st : σ) :
    s.WriteTo bits write st =
      some (writeLoop (AudioFormat.convertSampleR bits s.Format)
        write samples st 0) := by
  rw [Sine.WriteTo, h]

theorem writeLoop_bufferWrite (convert : ℝ → List ℕ) (l : List ℝ)
    (buf : List ℕ) (total : ℤ) :
    writeLoop convert bufferWrite l buf total =
      (buf ++ joinBytes convert l,
        total + ((joinBytes convert l).length : ℤ), none) := by
  induction l generalizing buf total with
  | nil => simp [writeLoop, joinBytes]
  | cons x rest ih =>
    show writeLoop convert bufferWrite rest (buf ++ convert x)
        (total + ((convert x).length : ℤ)) = _
    rw [ih, joinBytes]
    simp only [List.append_assoc, List.length_append, Prod.mk.injEq]
    refine ⟨trivial, ?_, trivial⟩
    push_cast
    ring

/-- C8: when every sink write succeeds (the buffer sink), `WriteTo`
returns `bytesWritten = sampleCount * (BitDepth() / 8)` and the sink ends
up holding exactly the concatenation of the encodings of the samples in
index order, whose length is that same byte count. -/
theorem writeTo_success_byte_accounting (s : Sine) (bits : ℝ → ℕ)
    (hr : 0 < s.SamplingRate) (hd : 0 ≤ s.Duration) :
    ∃ samples, s.Generate = some samples ∧
      s.WriteTo bits bufferWrite [] =
        some (joinBytes (AudioFormat.convertSampleR bits s.Format) samples,
          ((samples.length * (s.Format.BitDepth / 8) : ℕ) : ℤ), none) ∧
      (joinBytes (AudioFormat.convertSampleR bits s.Format) samples).length =
        samples.length * (s.Format.BitDepth / 8) := by
  have hsec : 0 ≤ durationSeconds s.Duration := by
    rw [durationSeconds]
    positivity
  have hx : 0 ≤ s.SamplingRate * durationSeconds s.Duration :=
    mul_nonneg (le_of_lt hr) hsec
  have hgen := generate_eq_of_nonneg hx
  refine ⟨_, hgen, ?_, joinBytes_length (convertSampleR_length bits s.Format) _⟩
  rw [writeTo_eq_some hgen]
  rw [writeLoop_bufferWrite]
  rw [joinBytes_length (convertSampleR_length bits s.Format)]
  simp

/-- Witness for C8 at the scenario B configuration and a trivial
bit-pattern interpretation. -/
theorem writeTo_success_byte_accounting_witness :
    0 < sineTen.SamplingRate ∧ 0 ≤ sineTen.Duration ∧
    (∃ samples, sineTen.Generate = some samples ∧
      sineTen.WriteTo (fun _ => 0) bufferWrite [] =
        some (joinBytes (AudioFormat.convertSampleR (fun _ => 0) sineTen.Format) samples,
          ((samples.length * (sineTen.Format.BitDepth / 8) : ℕ) : ℤ), none) ∧
      (joinBytes (AudioFormat.convertSampleR (fun _ => 0) sineTen.Format) samples).length =
        samples.length * (sineTen.Format.BitDepth / 8)) :=
  ⟨by norm_num [sineTen], by norm_num [sineTen],
   writeTo_success_byte_accounting sineTen (fun _ => 0)
     (by norm_num [sineTen]) (by norm_num [sineTen])⟩

theorem writeLoop_failAtWrite {convert : ℝ → List ℕ} {per : ℕ}
    (hlen : ∀ x, (convert x).length = per) (e : String) (k : ℕ) :
    ∀ (l : List ℝ) (i : ℕ) (buf : List ℕ) (total : ℤ),
      i ≤ k → k - i < l.length →
      writeLoop convert (failAtWrite k e) l (i, buf) total =
        ((k + 1, buf ++ joinBytes convert (l.take (k - i))),
          total + ((k - i : ℕ) : ℤ) * (per : ℤ),
          some (String.append "unable to write data, err: " e)) := by
  intro l
  induction l with
  | nil => intro i buf total _ hlt; simp at hlt
  | cons x rest ih =>
    intro i buf total hik hlt
    rw [writeLoop]
    by_cases hi : i = k
    · subst hi
      rw [show failAtWrite i e (i, buf) (convert x) = ((i + 1, buf), 0, some e)
        from by rw [failAtWrite]; simp]
      simp [Nat.sub_self, joinBytes]
    · have hik2 : i + 1 ≤ k := by omega
      have hm : k - i = (k - (i + 1)) + 1 := by omega
      rw [show failAtWrite k e (i, buf) (convert x) =
          ((i + 1, buf ++ convert x), (convert x).length, none)
        from by rw [failAtWrite]; simp [hi]]
      show writeLoop convert (failAtWrite k e) rest (i + 1, buf ++ convert x)
          (total + (((convert x).length : ℕ) : ℤ)) = _
      rw [ih (i + 1) _ _ hik2 (by simp at hlt ⊢; omega), hm,
        List.take_succ_cons, joinBytes, hlen x]
      simp only [List.append_assoc, Prod.mk.injEq, true_and, and_true]
      push_cast
      ring

/-- C9: when the sink rejects the write of sample `k` (any index inside
the generated range), `WriteTo` stops at once — the sink sees exactly
`k + 1` write calls — keeps the first `k` encodings already written (no
undo), and returns the byte count written so far together with the sink
error wrapped in the message of `fmt.Errorf`. -/
theorem writeTo_failure_stops_and_reports (s : Sine) (bits : ℝ → ℕ)
    (e : String) (k : ℕ) (hr : 0 < s.SamplingRate) (hd : 0 ≤ s.Duration)
    (hk : (k : ℤ) < ⌊s.SamplingRate * durationSeconds s.Duration⌋) :
    ∃ samples, s.Generate = some samples ∧
      s.WriteTo bits (failAtWrite k e) (0, []) =
        some ((k + 1,
            joinBytes (AudioFormat.convertSampleR bits s.Format) (samples.take k)),
          ((k : ℤ) * ((s.Format.BitDepth / 8 : ℕ) : ℤ)),
          some (String.append "unable to write data, err: " e)) := by
  have hsec : 0 ≤ durationSeconds s.Duration := by
    rw [durationSeconds]
    positivity
  have hx : 0 ≤ s.SamplingRate * durationSeconds s.Duration :=
    mul_nonneg (le_of_lt hr) hsec
  have hgen := generate_eq_of_nonneg hx
  refine ⟨_, hgen, ?_⟩
  rw [writeTo_eq_some hgen]
  have hcount : k < (List.map s.calculateSampleValue
      (List.range (⌊s.SamplingRate * durationSeconds s.Duration⌋).toNat)).length := by
    simp only [List.length_map, List.length_range]
    omega
  rw [writeLoop_failAtWrite (convertSampleR_length bits s.Format) e k _ 0 [] 0
    (Nat.zero_le k) (by omega)]
  simp

/-- Witness for C9 at the scenario B configuration, with the sink failing
on the fourth write call (index 3). -/
theorem writeTo_failure_stops_and_reports_witness :
    0 < sineTen.SamplingRate ∧ 0 ≤ sineTen.Duration ∧
    ((3 : ℤ) < ⌊sineTen.SamplingRate * durationSeconds sineTen.Duration⌋) ∧
    (∃ samples, sineTen.Generate = some samples ∧
      sineTen.WriteTo (fun _ => 0) (failAtWrite 3 "sink failed") (0, []) =
        some ((3 + 1,
            joinBytes (AudioFormat.convertSampleR (fun _ => 0) sineTen.Format)
              (samples.take 3)),
          ((3 : ℤ) * ((sineTen.Format.BitDepth / 8 : ℕ) : ℤ)),
          some (String.append "unable to write data, err: " "sink failed"))) :=
  ⟨by norm_num [sineTen], by norm_num [sineTen],
   by norm_num [sineTen, durationSeconds],
   writeTo_failure_stops_and_reports sineTen (fun _ => 0) "sink failed" 3
     (by norm_num [sineTen]) (by norm_num [sineTen])
     (by norm_num [sineTen, durationSeconds])⟩


/-- Counterexample for C10: at a negative duration the computed sample
count is negative, `make([]float64, totalSamples)` panics, and so both
`Generate` and `WriteTo` panic instead of returning degenerate output. -/
theorem generate_panics_on_negative_duration :
    sineNegDur.Generate = none ∧
    ∀ (bits : ℝ → ℕ), sineNegDur.WriteTo bits bufferWrite [] = none := by
  have hts : sineNegDur.totalSamples = -44100 := by
    rw [Sine.totalSamples, durationSeconds]
    have hx : sineNegDur.SamplingRate * ((sineNegDur.Duration : ℝ) / 1000000000) =
        ((-44100 : ℤ) : ℝ) := by
      norm_num [sineNegDur]
    rw [hx, truncR, if_neg (by norm_num), Int.ceil_intCast]
  have hg : sineNegDur.Generate = none := by
    rw [Sine.Generate, hts, if_pos (by norm_num)]
  exact ⟨hg, fun bits => by rw [Sine.WriteTo, hg]⟩

/-- C10 amended: no panic escapes `Generate` or `WriteTo` whenever the
computed sample count `int(samplingRate * duration.Seconds())` is
non-negative — in particular for every configuration with non-negative
sampling rate and duration; a negative product (for example a negative
duration with a positive sampling rate) instead reaches
`make([]float64, n)` with a negative length and panics. -/
theorem generate_writeTo_no_panic_on_nonneg_count (s : Sine)
    (h : 0 ≤ s.SamplingRate * durationSeconds s.Duration) :
    s.Generate.isSome = true ∧
    ∀ {σ : Type} (bits : ℝ → ℕ)
      (write : σ → List ℕ → σ × ℕ × Option String) (st : σ),
      (s.WriteTo bits write st).isSome = true := by
  have hgen := generate_eq_of_nonneg h
  refine ⟨by rw [hgen]; rfl, ?_⟩
  intro σ bits write st
  rw [writeTo_eq_some hgen]
  rfl

/-- Witness for the amended C10 at the scenario A configuration. -/
theorem generate_writeTo_no_panic_on_nonneg_count_witness :
    0 ≤ sineStd.SamplingRate * durationSeconds sineStd.Duration ∧
    (sineStd.Generate.isSome = true ∧
    ∀ {σ : Type} (bits : ℝ → ℕ)
      (write : σ → List ℕ → σ × ℕ × Option String) (st : σ),
      (sineStd.WriteTo bits write st).isSome = true) :=
  ⟨by norm_num [sineStd, durationSeconds],
   generate_writeTo_no_panic_on_nonneg_count sineStd
     (by norm_num [sineStd, durationSeconds])⟩
